import Mathlib

/-!
Shallow embedding of the nethuns-style RX ring demo (src/src/main.rs).

The program is a single-threaded model of a packet receive ring:
a `Ring` of 5 `RingSlot`s, each holding an occupancy flag (`status`),
a packet buffer (a `Vec<u8>`) and a timestamp; `Ring::recv` claims the
slot at the cursor (`next`) when its flag is false, and dropping the
returned `RecvPacket` stores false back into that slot's flag.

Modelling conventions:
- bytes (`u8`) are `Nat` with `% 256` at every cast site;
- `Instant::now()` is an opaque clock value passed in as a `Nat`
  argument (one per call site, a function `Nat → Nat` for the loop in
  `Ring::new`);
- `Vec<u8>` is `Buf`: the element list plus the tracked capacity, since
  the source reads `capacity()` and relies on `clear` keeping it;
- Rust's panicking index operator is modelled by an outer `Option`:
  `Ring.recv` returns `none` exactly when `slots[next]` would panic
  (never reachable from a well-formed ring, which the proofs show);
- the `Drop` impl for `RecvPacket` becomes the explicit state update
  `Ring.dropPacket`; a `RecvPacket` is identified by its `idx` field,
  its two borrowed fields (`status`, `packet`) are reads of the ring.
-/

namespace Nethuns

/-- Model of Rust `Vec<u8>`: the data plus the tracked capacity.
The source calls `clear` (keeps capacity) and `push`, and reads
`capacity()`, so the capacity must be part of the state. -/
structure Buf where
  data : List Nat
  cap : Nat
deriving Repr, DecidableEq

/-- `Vec::clear`: drops the elements, keeps the capacity. -/
def Buf.clear (b : Buf) : Buf := { data := [], cap := b.cap }

/-- `Vec::push`: appends one element; grows the capacity only when the
vector is full (the growth size is amortized-doubling, never exercised
by this program since it pushes exactly `capacity()` elements into a
cleared vector). -/
def Buf.push (b : Buf) (x : Nat) : Buf :=
  { data := b.data ++ [x],
    cap := if b.data.length < b.cap then b.cap
           else max (2 * b.cap) (b.data.length + 1) }

/-- One ring slot: occupancy flag, packet buffer, receive timestamp
(`struct RingSlot` in the source). -/
structure RingSlot where
  status : Bool
  packet : Buf
  timestamp : Nat
deriving Repr, DecidableEq

/-- The RX ring: a vector of slots and the wrapping cursor `next`
(`struct Ring` in the source). -/
structure Ring where
  slots : List RingSlot
  next : Nat
deriving Repr, DecidableEq

/-- The borrowed receive handle (`struct RecvPacket`). Its `status` and
`packet` fields are references into the ring, so the embedding keeps
only the stable identity `idx`; reads through the borrow are reads of
the ring at `idx`. -/
structure RecvPacket where
  idx : Nat
deriving Repr, DecidableEq

/-- `Ring::new`: 5 slots, each free, with buffer `vec![i as u8; 5]`
(capacity 5) and its own clock value, cursor 0. -/
def Ring.new (ts : Nat → Nat) : Ring :=
  { slots := (List.range 5).map (fun i =>
      { status := false,
        packet := { data := List.replicate 5 (i % 256), cap := 5 },
        timestamp := ts i }),
    next := 0 }

/-- The mutation sequence of a successful claim in `Ring::recv`
(lines 90–101 of the source), for the slot `slot` found at `next`:
store true into the flag, refresh the timestamp, advance the cursor
circularly, clear the buffer and push `i as u8` for
`i in 0..capacity()`. -/
def Ring.claimUpdate (r : Ring) (t : Nat) (slot : RingSlot) : Ring :=
  let next_idx := r.next
  let slot1 : RingSlot := { slot with status := true, timestamp := t }
  let slots1 := r.slots.set next_idx slot1
  let next2 := (next_idx + 1) % r.slots.length
  let cleared := slot1.packet.clear
  let filled := (List.range cleared.cap).foldl (fun b i => b.push (i % 256)) cleared
  { slots := slots1.set next_idx { slot1 with packet := filled },
    next := next2 }

/-- `Ring::recv`. Outer `none` models the panic of `self.slots[next_idx]`
when the cursor is out of bounds (unreachable from a well-formed ring);
`some (none, r)` is the early `return None` with the ring untouched;
`some (some p, r2)` is a successful claim. -/
def Ring.recv (r : Ring) (t : Nat) : Option (Option RecvPacket × Ring) :=
  match r.slots[r.next]? with
  | none => none
  | some slot =>
    if slot.status then
      some (none, r)
    else
      some (some { idx := r.next }, r.claimUpdate t slot)

/-- The `Drop` impl for `RecvPacket`: store false into the referenced
slot's occupancy flag (the borrow is always in bounds in the source;
out of bounds the update is a no-op). -/
def Ring.dropPacket (r : Ring) (k : Nat) : Ring :=
  match r.slots[k]? with
  | none => r
  | some s => { r with slots := r.slots.set k { s with status := false } }

/-- Occupancy flag of slot `k` as an observer reads it (false when out
of bounds, matching `Ring.dropPacket`'s no-op convention). -/
def Ring.statusAt (r : Ring) (k : Nat) : Bool :=
  match r.slots[k]? with
  | none => false
  | some s => s.status

/-- Run `recv` once per clock value in `ts`, recording each outcome:
`none` = panic (aborts the run), `some none` = unavailable,
`some (some k)` = a handle for slot `k`. Mirrors the polling loops of
`main`. -/
def recvTrace (r : Ring) : List Nat → List (Option (Option Nat)) × Ring
  | [] => ([], r)
  | t :: rest =>
    match r.recv t with
    | none => ([none], r)
    | some (res, r2) =>
      let tail := recvTrace r2 rest
      (some (res.map RecvPacket.idx) :: tail.1, tail.2)

/-- An event of the program: one `recv` call, or the destruction of the
live handle for slot `k`. -/
inductive Op where
  | recv (t : Nat)
  | drop (k : Nat)
deriving Repr, DecidableEq

/-- The program state for lifecycle reasoning: the ring plus the indices
of the currently live `RecvPacket` handles. -/
structure World where
  ring : Ring
  live : List Nat
deriving Repr, DecidableEq

/-- One event: a `recv` threads the ring and records a new live handle
on success; a `drop` of a live handle runs the `Drop` impl and retires
it. -/
def World.step (w : World) : Op → World
  | .recv t =>
    match w.ring.recv t with
    | none => w
    | some (none, r2) => { ring := r2, live := w.live }
    | some (some p, r2) => { ring := r2, live := p.idx :: w.live }
  | .drop k =>
    if k ∈ w.live then
      { ring := w.ring.dropPacket k, live := w.live.erase k }
    else w

/-- The state right after `Socket::new()` in `main`: a fresh ring, no
live handles. -/
def World.init (ts : Nat → Nat) : World :=
  { ring := Ring.new ts, live := [] }

/-- Run a sequence of events. -/
def World.run (w : World) (ops : List Op) : World :=
  ops.foldl World.step w

/-- Handle-lifecycle invariant: live handle indices are distinct, and
every live handle's slot reads occupied. (`statusAt` is false out of
bounds, so the second conjunct also keeps live indices in bounds.) -/
def WInv (w : World) : Prop :=
  w.live.Nodup ∧ ∀ k ∈ w.live, w.ring.statusAt k = true

/-- Cursor well-formedness: the cursor is a valid index into the slots. -/
def NInv (w : World) : Prop := w.ring.next < w.ring.slots.length

/-- Capacity invariant: the slot vector keeps its construction length 5. -/
def LInv (w : World) : Prop := w.ring.slots.length = 5

/-- The ring of `main` after its first successful `recv` at clock 0:
slot 0 claimed and refilled, cursor at 1. Used to instantiate theorems
at a concrete input. -/
def ringAfterClaim0 : Ring :=
  { slots := [
      { status := true, packet := { data := [0, 1, 2, 3, 4], cap := 5 }, timestamp := 0 },
      { status := false, packet := { data := [1, 1, 1, 1, 1], cap := 5 }, timestamp := 0 },
      { status := false, packet := { data := [2, 2, 2, 2, 2], cap := 5 }, timestamp := 0 },
      { status := false, packet := { data := [3, 3, 3, 3, 3], cap := 5 }, timestamp := 0 },
      { status := false, packet := { data := [4, 4, 4, 4, 4], cap := 5 }, timestamp := 0 } ],
    next := 1 }

/-- The ring of `main` after the first drain at clock 0: every slot
claimed and refilled, cursor back at 0. Used to instantiate theorems at
a concrete input. -/
def fullRing : Ring :=
  (recvTrace (Ring.new (fun _ => 0)) [0, 0, 0, 0, 0]).2

/-- Slot 0 of a fresh ring at clock 0. -/
def freshSlot0 : RingSlot :=
  { status := false, packet := { data := [0, 0, 0, 0, 0], cap := 5 }, timestamp := 0 }

/-- Slot 0 right after its first claim at clock 0. -/
def claimedSlot0 : RingSlot :=
  { status := true, packet := { data := [0, 1, 2, 3, 4], cap := 5 }, timestamp := 0 }

/-! ### Timestamp erasure

Clock values never influence control flow, so every observable of a run
other than the stored timestamps is determined by the `shape` of the
ring: the statuses and buffers of the slots plus the cursor. The
congruence lemmas below let concrete runs with arbitrary clock values
be evaluated at clock 0. -/

/-- Timestamp-erased view of one slot. -/
def RingSlot.shape (s : RingSlot) : Bool × Buf := (s.status, s.packet)

/-- Timestamp-erased view of the ring. -/
def Ring.shape (r : Ring) : List (Bool × Buf) × Nat :=
  (r.slots.map RingSlot.shape, r.next)

theorem Ring.shape_next_eq {r1 r2 : Ring} (h : r1.shape = r2.shape) :
    r1.next = r2.next := congrArg Prod.snd h

theorem Ring.shape_map_eq {r1 r2 : Ring} (h : r1.shape = r2.shape) :
    r1.slots.map RingSlot.shape = r2.slots.map RingSlot.shape :=
  congrArg Prod.fst h

theorem Ring.shape_length_eq {r1 r2 : Ring} (h : r1.shape = r2.shape) :
    r1.slots.length = r2.slots.length := by
  have := congrArg List.length (Ring.shape_map_eq h)
  simpa using this

theorem Ring.shape_getElem {r1 r2 : Ring} (h : r1.shape = r2.shape) (n : Nat) :
    r1.slots[n]?.map RingSlot.shape = r2.slots[n]?.map RingSlot.shape := by
  have := congrArg (fun l => l[n]?) (Ring.shape_map_eq h)
  simpa [List.getElem?_map] using this

/-! ### Anatomy of `Buf` refill and `claimUpdate` -/

theorem Buf.foldl_push_spec (l : List Nat) (b : Buf)
    (h : b.data.length + l.length ≤ b.cap) :
    l.foldl (fun c i => c.push (i % 256)) b =
      { data := b.data ++ l.map (fun i => i % 256), cap := b.cap } := by
  induction l generalizing b with
  | nil => simp
  | cons x xs ih =>
    simp only [List.length_cons] at h
    have hlt : b.data.length < b.cap := by omega
    rw [List.foldl_cons, ih]
    · simp [Buf.push, hlt]
    · simp [Buf.push, hlt]
      omega

theorem Buf.refill_spec (b : Buf) :
    (List.range b.clear.cap).foldl (fun c i => c.push (i % 256)) b.clear =
      { data := (List.range b.cap).map (fun i => i % 256), cap := b.cap } := by
  have := Buf.foldl_push_spec (List.range b.clear.cap) b.clear (by simp [Buf.clear])
  simpa [Buf.clear] using this

theorem Ring.claimUpdate_next (r : Ring) (t : Nat) (slot : RingSlot) :
    (r.claimUpdate t slot).next = (r.next + 1) % r.slots.length := rfl

theorem Ring.claimUpdate_slots (r : Ring) (t : Nat) (slot : RingSlot) :
    (r.claimUpdate t slot).slots =
      r.slots.set r.next
        { status := true,
          packet := { data := (List.range slot.packet.cap).map (fun i => i % 256),
                      cap := slot.packet.cap },
          timestamp := t } := by
  show (r.slots.set r.next _).set r.next _ = _
  rw [List.set_set, Buf.refill_spec slot.packet]

theorem Ring.claimUpdate_length (r : Ring) (t : Nat) (slot : RingSlot) :
    (r.claimUpdate t slot).slots.length = r.slots.length := by
  rw [Ring.claimUpdate_slots]; exact List.length_set ..

theorem Ring.claimUpdate_getElem_ne (r : Ring) (t : Nat) (slot : RingSlot)
    {j : Nat} (hj : j ≠ r.next) :
    (r.claimUpdate t slot).slots[j]? = r.slots[j]? := by
  rw [Ring.claimUpdate_slots]
  exact List.getElem?_set_ne (fun hc => hj hc.symm)

theorem Ring.claimUpdate_getElem_self (r : Ring) (t : Nat) (slot : RingSlot)
    (h : r.next < r.slots.length) :
    (r.claimUpdate t slot).slots[r.next]? =
      some { status := true,
             packet := { data := (List.range slot.packet.cap).map (fun i => i % 256),
                         cap := slot.packet.cap },
             timestamp := t } := by
  rw [Ring.claimUpdate_slots]
  exact List.getElem?_set_self h

/-! ### Anatomy of `recv` and `dropPacket` -/

theorem Ring.recv_of_oob {r : Ring} (t : Nat) (h : r.slots[r.next]? = none) :
    r.recv t = none := by
  unfold Ring.recv; rw [h]

theorem Ring.recv_of_occupied {r : Ring} (t : Nat) {s : RingSlot}
    (h : r.slots[r.next]? = some s) (hs : s.status = true) :
    r.recv t = some (none, r) := by
  unfold Ring.recv; rw [h]; simp [hs]

theorem Ring.recv_of_free {r : Ring} (t : Nat) {s : RingSlot}
    (h : r.slots[r.next]? = some s) (hs : s.status = false) :
    r.recv t = some (some { idx := r.next }, r.claimUpdate t s) := by
  unfold Ring.recv; rw [h]; simp [hs]

theorem Ring.dropPacket_of_oob {r : Ring} {k : Nat} (h : r.slots[k]? = none) :
    r.dropPacket k = r := by
  unfold Ring.dropPacket; rw [h]

theorem Ring.dropPacket_of_some {r : Ring} {k : Nat} {s : RingSlot}
    (h : r.slots[k]? = some s) :
    r.dropPacket k = { r with slots := r.slots.set k { s with status := false } } := by
  unfold Ring.dropPacket; rw [h]

theorem recvTrace_cons_none {r : Ring} {t : Nat} (rest : List Nat)
    (h : r.recv t = none) : recvTrace r (t :: rest) = ([none], r) := by
  rw [recvTrace.eq_2, h]

theorem recvTrace_cons_some {r : Ring} {t : Nat} (rest : List Nat)
    {res : Option RecvPacket} {r2 : Ring} (h : r.recv t = some (res, r2)) :
    recvTrace r (t :: rest) =
      (some (res.map RecvPacket.idx) :: (recvTrace r2 rest).1,
        (recvTrace r2 rest).2) := by
  rw [recvTrace.eq_2, h]

theorem Ring.recv_success_elim {r : Ring} {t : Nat} {p : RecvPacket} {r2 : Ring}
    (h : r.recv t = some (some p, r2)) :
    ∃ slot, r.slots[r.next]? = some slot ∧ slot.status = false ∧
      p = { idx := r.next } ∧ r2 = r.claimUpdate t slot := by
  rcases hg : r.slots[r.next]? with _ | slot
  · simp [Ring.recv, hg] at h
  · by_cases hs : slot.status
    · simp [Ring.recv, hg, hs] at h
    · simp only [Ring.recv, hg, hs, if_false, Bool.false_eq_true] at h
      obtain ⟨h1, h2⟩ := Prod.mk.injEq .. ▸ Option.some.injEq .. ▸ h
      exact ⟨slot, rfl, by simpa using hs, (Option.some.injEq .. ▸ h1).symm, h2.symm⟩

theorem Ring.recv_fail_elim {r : Ring} {t : Nat} {r2 : Ring}
    (h : r.recv t = some (none, r2)) :
    r2 = r ∧ ∃ slot, r.slots[r.next]? = some slot ∧ slot.status = true := by
  rcases hg : r.slots[r.next]? with _ | slot
  · simp [Ring.recv, hg] at h
  · by_cases hs : slot.status
    · simp only [Ring.recv, hg, hs, if_true] at h
      obtain ⟨-, h2⟩ := Prod.mk.injEq .. ▸ Option.some.injEq .. ▸ h
      exact ⟨h2.symm, slot, rfl, hs⟩
    · simp [Ring.recv, hg, hs] at h

theorem Ring.recv_none_iff {r : Ring} {t : Nat} :
    r.recv t = none ↔ r.slots[r.next]? = none := by
  rcases hg : r.slots[r.next]? with _ | slot
  · simp [Ring.recv, hg]
  · by_cases hs : slot.status <;> simp [Ring.recv, hg, hs]

theorem Ring.dropPacket_next (r : Ring) (k : Nat) :
    (r.dropPacket k).next = r.next := by
  unfold Ring.dropPacket
  rcases r.slots[k]? with _ | s <;> rfl

theorem Ring.dropPacket_getElem_ne (r : Ring) {k j : Nat} (hj : j ≠ k) :
    (r.dropPacket k).slots[j]? = r.slots[j]? := by
  unfold Ring.dropPacket
  rcases r.slots[k]? with _ | s
  · rfl
  · exact List.getElem?_set_ne (fun hc => hj hc.symm)

theorem Ring.statusAt_true_iff {r : Ring} {k : Nat} :
    r.statusAt k = true ↔ ∃ s, r.slots[k]? = some s ∧ s.status = true := by
  unfold Ring.statusAt
  rcases r.slots[k]? with _ | s <;> simp

/-! ### Shape congruence: clock values never influence observables -/

theorem Ring.claimUpdate_shape_congr {r1 r2 : Ring} {t1 t2 : Nat}
    {s1 s2 : RingSlot} (h : r1.shape = r2.shape) (hs : s1.shape = s2.shape) :
    (r1.claimUpdate t1 s1).shape = (r2.claimUpdate t2 s2).shape := by
  have hn := Ring.shape_next_eq h
  have hl := Ring.shape_length_eq h
  have hm := Ring.shape_map_eq h
  have hp : s1.packet = s2.packet := congrArg Prod.snd hs
  unfold Ring.shape
  rw [Ring.claimUpdate_next, Ring.claimUpdate_next,
    Ring.claimUpdate_slots, Ring.claimUpdate_slots,
    List.map_set, List.map_set, hn, hl, hm, hp]
  rfl

theorem Ring.recv_shape_congr {r1 r2 : Ring} (t1 t2 : Nat)
    (h : r1.shape = r2.shape) :
    Option.map (fun q => (q.1, Ring.shape q.2)) (r1.recv t1) =
      Option.map (fun q => (q.1, Ring.shape q.2)) (r2.recv t2) := by
  have hn := Ring.shape_next_eq h
  have hg : Option.map RingSlot.shape r1.slots[r1.next]? =
      Option.map RingSlot.shape r2.slots[r2.next]? := by
    rw [← hn]; exact Ring.shape_getElem h r1.next
  rcases hg1 : r1.slots[r1.next]? with _ | s1
  · rw [hg1] at hg
    have hg2 : r2.slots[r2.next]? = none := by
      rcases hg2 : r2.slots[r2.next]? with _ | s2
      · rfl
      · rw [hg2] at hg; simp at hg
    rw [Ring.recv_of_oob t1 hg1, Ring.recv_of_oob t2 hg2]
  · rw [hg1] at hg
    obtain ⟨s2, hg2, hsh⟩ : ∃ s2, r2.slots[r2.next]? = some s2 ∧
        s1.shape = s2.shape := by
      rcases hg2 : r2.slots[r2.next]? with _ | s2
      · rw [hg2] at hg; simp at hg
      · rw [hg2] at hg; simp only [Option.map_some'] at hg
        exact ⟨s2, rfl, Option.some.injEq .. ▸ hg⟩
    have hst : s1.status = s2.status := congrArg Prod.fst hsh
    by_cases hocc : s1.status = true
    · have hocc2 : s2.status = true := hst ▸ hocc
      rw [Ring.recv_of_occupied t1 hg1 hocc, Ring.recv_of_occupied t2 hg2 hocc2]
      simp only [Option.map_some']
      exact congrArg some (congrArg _ h)
    · have hocc1 : s1.status = false := by simpa using hocc
      have hocc2 : s2.status = false := hst ▸ hocc1
      rw [Ring.recv_of_free t1 hg1 hocc1, Ring.recv_of_free t2 hg2 hocc2]
      simp only [Option.map_some']
      refine congrArg some (congrArg₂ Prod.mk ?_ ?_)
      · rw [hn]
      · exact Ring.claimUpdate_shape_congr h hsh

theorem Ring.dropPacket_shape_congr {r1 r2 : Ring} (k : Nat)
    (h : r1.shape = r2.shape) :
    (r1.dropPacket k).shape = (r2.dropPacket k).shape := by
  have hn := Ring.shape_next_eq h
  have hm := Ring.shape_map_eq h
  have hg := Ring.shape_getElem h k
  rcases hg1 : r1.slots[k]? with _ | s1
  · rw [hg1] at hg
    have hg2 : r2.slots[k]? = none := by
      rcases hg2 : r2.slots[k]? with _ | s2
      · rfl
      · rw [hg2] at hg; simp at hg
    rw [Ring.dropPacket_of_oob hg1, Ring.dropPacket_of_oob hg2]
    exact h
  · rw [hg1] at hg
    obtain ⟨s2, hg2, hsh⟩ : ∃ s2, r2.slots[k]? = some s2 ∧
        s1.shape = s2.shape := by
      rcases hg2 : r2.slots[k]? with _ | s2
      · rw [hg2] at hg; simp at hg
      · rw [hg2] at hg; simp only [Option.map_some'] at hg
        exact ⟨s2, rfl, Option.some.injEq .. ▸ hg⟩
    have hp : s1.packet = s2.packet := congrArg Prod.snd hsh
    rw [Ring.dropPacket_of_some hg1, Ring.dropPacket_of_some hg2]
    unfold Ring.shape
    simp only [List.map_set]
    rw [hm, hn, hp]
    rfl

theorem recvTrace_shape_congr :
    ∀ (ts1 ts2 : List Nat), ts1.length = ts2.length →
    ∀ (r1 r2 : Ring), r1.shape = r2.shape →
    (recvTrace r1 ts1).1 = (recvTrace r2 ts2).1 ∧
      (recvTrace r1 ts1).2.shape = (recvTrace r2 ts2).2.shape := by
  intro ts1
  induction ts1 with
  | nil =>
    intro ts2 hlen r1 r2 h
    rcases ts2 with _ | ⟨t2, rest2⟩
    · exact ⟨rfl, h⟩
    · simp at hlen
  | cons t1 rest1 ih =>
    intro ts2 hlen r1 r2 h
    rcases ts2 with _ | ⟨t2, rest2⟩
    · simp at hlen
    · have hlen2 : rest1.length = rest2.length := by simpa using hlen
      have hr := Ring.recv_shape_congr t1 t2 h
      rcases hq1 : r1.recv t1 with _ | ⟨res1, rr1⟩
      · rw [hq1] at hr
        have hq2 : r2.recv t2 = none := by
          rcases hq2 : r2.recv t2 with _ | q2
          · rfl
          · rw [hq2] at hr; simp at hr
        rw [recvTrace_cons_none rest1 hq1, recvTrace_cons_none rest2 hq2]
        exact ⟨rfl, h⟩
      · rw [hq1] at hr
        obtain ⟨res2, rr2, hq2, hres, hrsh⟩ :
            ∃ res2 rr2, r2.recv t2 = some (res2, rr2) ∧ res1 = res2 ∧
              rr1.shape = rr2.shape := by
          rcases hq2 : r2.recv t2 with _ | ⟨res2, rr2⟩
          · rw [hq2] at hr; simp at hr
          · rw [hq2] at hr
            simp only [Option.map_some', Option.some.injEq, Prod.mk.injEq] at hr
            exact ⟨res2, rr2, rfl, hr.1, hr.2⟩
        obtain ⟨htl, hsh⟩ := ih rest2 hlen2 rr1 rr2 hrsh
        rw [recvTrace_cons_some rest1 hq1, recvTrace_cons_some rest2 hq2]
        exact ⟨by rw [hres, htl], hsh⟩

theorem foldl_dropPacket_shape_congr (ks : List Nat) :
    ∀ {r1 r2 : Ring}, r1.shape = r2.shape →
    (ks.foldl Ring.dropPacket r1).shape = (ks.foldl Ring.dropPacket r2).shape := by
  induction ks with
  | nil => intro r1 r2 h; exact h
  | cons k ks ih =>
    intro r1 r2 h
    simp only [List.foldl_cons]
    exact ih (Ring.dropPacket_shape_congr k h)

theorem Ring.shape_packets_eq {r1 r2 : Ring} (h : r1.shape = r2.shape) :
    r1.slots.map (fun s => s.packet.data) = r2.slots.map (fun s => s.packet.data) := by
  have hm := Ring.shape_map_eq h
  have e1 : r1.slots.map (fun s => s.packet.data) =
      (r1.slots.map RingSlot.shape).map (fun q => q.2.data) := by
    rw [List.map_map]; rfl
  have e2 : r2.slots.map (fun s => s.packet.data) =
      (r2.slots.map RingSlot.shape).map (fun q => q.2.data) := by
    rw [List.map_map]; rfl
  rw [e1, e2, hm]

theorem Ring.new_shape_eq (ts : Nat → Nat) :
    (Ring.new ts).shape = (Ring.new (fun _ => 0)).shape := rfl

/-! ### Occupancy bookkeeping -/

theorem getElem?_some_lt {α : Type} {l : List α} {i : Nat} {a : α}
    (h : l[i]? = some a) : i < l.length := by
  rcases List.getElem?_eq_some.mp h with ⟨hlt, -⟩
  exact hlt

theorem Ring.statusAt_claimUpdate_self {r : Ring} (t : Nat) (slot : RingSlot)
    (h : r.next < r.slots.length) :
    (r.claimUpdate t slot).statusAt r.next = true := by
  unfold Ring.statusAt
  rw [Ring.claimUpdate_getElem_self r t slot h]

theorem Ring.statusAt_claimUpdate_ne {r : Ring} (t : Nat) (slot : RingSlot)
    {j : Nat} (hj : j ≠ r.next) :
    (r.claimUpdate t slot).statusAt j = r.statusAt j := by
  unfold Ring.statusAt
  rw [Ring.claimUpdate_getElem_ne r t slot hj]

theorem Ring.statusAt_dropPacket_self (r : Ring) (k : Nat) :
    (r.dropPacket k).statusAt k = false := by
  rcases hg : r.slots[k]? with _ | s
  · rw [Ring.dropPacket_of_oob hg]
    unfold Ring.statusAt
    rw [hg]
  · rw [Ring.dropPacket_of_some hg]
    unfold Ring.statusAt
    rw [List.getElem?_set_self (getElem?_some_lt hg)]

theorem Ring.statusAt_dropPacket_ne (r : Ring) {k j : Nat} (hj : j ≠ k) :
    (r.dropPacket k).statusAt j = r.statusAt j := by
  unfold Ring.statusAt
  rw [Ring.dropPacket_getElem_ne r hj]

theorem Ring.dropPacket_length (r : Ring) (k : Nat) :
    (r.dropPacket k).slots.length = r.slots.length := by
  rcases hg : r.slots[k]? with _ | s
  · rw [Ring.dropPacket_of_oob hg]
  · rw [Ring.dropPacket_of_some hg]
    exact List.length_set ..

/-! ### World step unfoldings and invariants -/

theorem World.step_recv_panic {w : World} {t : Nat}
    (h : w.ring.recv t = none) : w.step (.recv t) = w := by
  have e : w.step (.recv t) =
      match w.ring.recv t with
      | none => w
      | some (none, r2) => { ring := r2, live := w.live }
      | some (some p, r2) => { ring := r2, live := p.idx :: w.live } := rfl
  rw [e, h]

theorem World.step_recv_fail {w : World} {t : Nat} {r2 : Ring}
    (h : w.ring.recv t = some (none, r2)) :
    w.step (.recv t) = { ring := r2, live := w.live } := by
  have e : w.step (.recv t) =
      match w.ring.recv t with
      | none => w
      | some (none, r2) => { ring := r2, live := w.live }
      | some (some p, r2) => { ring := r2, live := p.idx :: w.live } := rfl
  rw [e, h]

theorem World.step_recv_success {w : World} {t : Nat} {p : RecvPacket} {r2 : Ring}
    (h : w.ring.recv t = some (some p, r2)) :
    w.step (.recv t) = { ring := r2, live := p.idx :: w.live } := by
  have e : w.step (.recv t) =
      match w.ring.recv t with
      | none => w
      | some (none, r2) => { ring := r2, live := w.live }
      | some (some p, r2) => { ring := r2, live := p.idx :: w.live } := rfl
  rw [e, h]

theorem World.step_drop_mem {w : World} {k : Nat} (h : k ∈ w.live) :
    w.step (.drop k) = { ring := w.ring.dropPacket k, live := w.live.erase k } := by
  have e : w.step (.drop k) =
      if k ∈ w.live then { ring := w.ring.dropPacket k, live := w.live.erase k }
      else w := rfl
  rw [e, if_pos h]

theorem World.step_drop_not_mem {w : World} {k : Nat} (h : k ∉ w.live) :
    w.step (.drop k) = w := by
  have e : w.step (.drop k) =
      if k ∈ w.live then { ring := w.ring.dropPacket k, live := w.live.erase k }
      else w := rfl
  rw [e, if_neg h]

theorem World.run_cons (w : World) (op : Op) (ops : List Op) :
    w.run (op :: ops) = (w.step op).run ops := rfl

theorem WInv.preservation {w : World} (hw : WInv w) : ∀ op, WInv (w.step op) := by
  obtain ⟨hnd, hlive⟩ := hw
  intro op
  cases op with
  | recv t =>
    rcases hq : w.ring.recv t with _ | ⟨_ | p, r2⟩
    · rw [World.step_recv_panic hq]; exact ⟨hnd, hlive⟩
    · obtain ⟨hr2, -⟩ := Ring.recv_fail_elim hq
      rw [World.step_recv_fail hq]
      exact ⟨hnd, by rw [hr2] at *; exact hlive⟩
    · obtain ⟨slot, hg, hst, hp, hr2⟩ := Ring.recv_success_elim hq
      rw [World.step_recv_success hq]
      have hlt : w.ring.next < w.ring.slots.length := getElem?_some_lt hg
      have hfree : w.ring.statusAt w.ring.next = false := by
        unfold Ring.statusAt; rw [hg]; exact hst
      have hnot : w.ring.next ∉ w.live := by
        intro hmem
        have := hlive _ hmem
        rw [hfree] at this
        exact Bool.false_ne_true this
      constructor
      · exact List.nodup_cons.mpr ⟨by rw [hp]; exact hnot, hnd⟩
      · intro k hk
        rcases List.mem_cons.mp hk with hk | hk
        · rw [hk, hp, hr2]
          exact Ring.statusAt_claimUpdate_self t slot hlt
        · have hkne : k ≠ w.ring.next := by
            intro he
            have := hlive _ hk
            rw [he, hfree] at this
            exact Bool.false_ne_true this
          rw [hr2, Ring.statusAt_claimUpdate_ne t slot hkne]
          exact hlive _ hk
  | drop k =>
    by_cases hk : k ∈ w.live
    · rw [World.step_drop_mem hk]
      refine ⟨hnd.erase k, ?_⟩
      intro j hj
      obtain ⟨hjk, hjl⟩ := (List.Nodup.mem_erase_iff hnd).mp hj
      rw [Ring.statusAt_dropPacket_ne _ hjk]
      exact hlive _ hjl
    · rw [World.step_drop_not_mem hk]
      exact ⟨hnd, hlive⟩

theorem WInv.run_preservation : ∀ (ops : List Op) (w : World), WInv w → WInv (w.run ops) := by
  intro ops
  induction ops with
  | nil => intro w hw; exact hw
  | cons op ops ih =>
    intro w hw
    rw [World.run_cons]
    exact ih _ (hw.preservation op)

theorem WInv.initial (ts : Nat → Nat) : WInv (World.init ts) := by
  refine ⟨List.nodup_nil, ?_⟩
  intro k hk
  simp [World.init] at hk

theorem NInv.step_bound {w : World} (hw : NInv w) : ∀ op, NInv (w.step op) := by
  intro op
  cases op with
  | recv t =>
    rcases hq : w.ring.recv t with _ | ⟨_ | p, r2⟩
    · rw [World.step_recv_panic hq]; exact hw
    · obtain ⟨hr2, -⟩ := Ring.recv_fail_elim hq
      rw [World.step_recv_fail hq]
      unfold NInv
      rw [hr2] at *
      exact hw
    · obtain ⟨slot, hg, -, -, hr2⟩ := Ring.recv_success_elim hq
      rw [World.step_recv_success hq]
      unfold NInv
      show r2.next < r2.slots.length
      rw [hr2, Ring.claimUpdate_next, Ring.claimUpdate_length]
      exact Nat.mod_lt _ (Nat.lt_of_le_of_lt (Nat.zero_le _) hw)
  | drop k =>
    by_cases hk : k ∈ w.live
    · rw [World.step_drop_mem hk]
      unfold NInv
      show (w.ring.dropPacket k).next < (w.ring.dropPacket k).slots.length
      rw [Ring.dropPacket_next, Ring.dropPacket_length]
      exact hw
    · rw [World.step_drop_not_mem hk]
      exact hw

theorem NInv.run_bound : ∀ (ops : List Op) (w : World), NInv w → NInv (w.run ops) := by
  intro ops
  induction ops with
  | nil => intro w hw; exact hw
  | cons op ops ih =>
    intro w hw
    rw [World.run_cons]
    exact ih _ (hw.step_bound op)

theorem NInv.init_bound (ts : Nat → Nat) : NInv (World.init ts) := by
  show (Ring.new ts).next < (Ring.new ts).slots.length
  simp [Ring.new]

theorem LInv.step_len {w : World} (hw : LInv w) : ∀ op, LInv (w.step op) := by
  intro op
  cases op with
  | recv t =>
    rcases hq : w.ring.recv t with _ | ⟨_ | p, r2⟩
    · rw [World.step_recv_panic hq]; exact hw
    · obtain ⟨hr2, -⟩ := Ring.recv_fail_elim hq
      rw [World.step_recv_fail hq]
      show r2.slots.length = 5
      rw [hr2]
      exact hw
    · obtain ⟨slot, -, -, -, hr2⟩ := Ring.recv_success_elim hq
      rw [World.step_recv_success hq]
      show r2.slots.length = 5
      rw [hr2, Ring.claimUpdate_length]
      exact hw
  | drop k =>
    by_cases hk : k ∈ w.live
    · rw [World.step_drop_mem hk]
      show (w.ring.dropPacket k).slots.length = 5
      rw [Ring.dropPacket_length]
      exact hw
    · rw [World.step_drop_not_mem hk]
      exact hw

theorem LInv.run_len : ∀ (ops : List Op) (w : World), LInv w → LInv (w.run ops) := by
  intro ops
  induction ops with
  | nil => intro w hw; exact hw
  | cons op ops ih =>
    intro w hw
    rw [World.run_cons]
    exact ih _ (hw.step_len op)

theorem LInv.init_len (ts : Nat → Nat) : LInv (World.init ts) := by
  show (Ring.new ts).slots.length = 5
  simp [Ring.new]

theorem live_length_le_five (ts : Nat → Nat) (ops : List Op) :
    ((World.init ts).run ops).live.length ≤ 5 := by
  obtain ⟨hnd, hlive⟩ := WInv.run_preservation ops _ (WInv.initial ts)
  have hlen : ((World.init ts).run ops).ring.slots.length = 5 :=
    LInv.run_len ops _ (LInv.init_len ts)
  have hb : ∀ k ∈ ((World.init ts).run ops).live, k < 5 := by
    intro k hk
    obtain ⟨s, hg, -⟩ := Ring.statusAt_true_iff.mp (hlive k hk)
    have := getElem?_some_lt hg
    omega
  set l := ((World.init ts).run ops).live with hl
  have hsub : l ⊆ List.range 5 := fun k hk => List.mem_range.mpr (hb k hk)
  have h1 : l.length = l.toFinset.card := (List.toFinset_card_of_nodup hnd).symm
  have h2 : l.toFinset ⊆ (List.range 5).toFinset := fun k hk => by
    rw [List.mem_toFinset] at *
    exact hsub hk
  have h3 := Finset.card_le_card h2
  have h4 : (List.range 5).toFinset.card = 5 := by
    rw [List.toFinset_card_of_nodup (List.nodup_range 5), List.length_range]
  omega

/-! ### Claim theorems -/

/-- C1: while a Handle for slot k is alive (its slot's occupancy flag
is true), no `recv` call returns a Handle referencing slot k: in every
state reachable from a fresh socket by `recv` calls and handle drops, a
successful `recv` returns a packet whose slot has no live handle, and
whose occupancy flag read false at the claim check. -/
theorem no_double_issue (ts : Nat → Nat) (ops : List Op) (t : Nat)
    (p : RecvPacket) (r2 : Ring)
    (h : ((World.init ts).run ops).ring.recv t = some (some p, r2)) :
    p.idx ∉ ((World.init ts).run ops).live ∧
      ((World.init ts).run ops).ring.statusAt p.idx = false := by
  obtain ⟨slot, hg, hst, hp, -⟩ := Ring.recv_success_elim h
  have hw : WInv ((World.init ts).run ops) := WInv.run_preservation ops _ (WInv.initial ts)
  have hidx : p.idx = ((World.init ts).run ops).ring.next := by rw [hp]
  have hfree : ((World.init ts).run ops).ring.statusAt p.idx = false := by
    rw [hidx]
    unfold Ring.statusAt
    rw [hg]
    exact hst
  refine ⟨fun hmem => ?_, hfree⟩
  have := hw.2 _ hmem
  rw [hfree] at this
  exact Bool.false_ne_true this

/-- Witness for C1: the very first `recv` of `main`, at clock 0. -/
theorem no_double_issue_witness :
    ({ idx := 0 } : RecvPacket).idx ∉ ((World.init (fun _ => 0)).run []).live ∧
      ((World.init (fun _ => 0)).run []).ring.statusAt
        ({ idx := 0 } : RecvPacket).idx = false :=
  no_double_issue (fun _ => 0) [] 0 { idx := 0 } ringAfterClaim0 (by decide)

/-- C2: from a fresh ring of capacity 5, five consecutive `recv` calls
succeed with slot indices 0,1,2,3,4 (so five Handles are live at once),
and the sixth call before any release reports unavailable (`some none`,
not a panic), for every choice of clock values. -/
theorem capacity_bound (ts : Nat → Nat) (t1 t2 t3 t4 t5 t6 : Nat) :
    (recvTrace (Ring.new ts) [t1, t2, t3, t4, t5, t6]).1 =
      [some (some 0), some (some 1), some (some 2), some (some 3),
        some (some 4), some none] ∧
    ∀ ops : List Op, ((World.init ts).run ops).live.length ≤ 5 := by
  constructor
  · have h := (recvTrace_shape_congr [t1, t2, t3, t4, t5, t6] [0, 0, 0, 0, 0, 0]
        rfl (Ring.new ts) (Ring.new (fun _ => 0)) (Ring.new_shape_eq ts)).1
    rw [h]
    decide
  · exact live_length_le_five ts

/-- C10: when `recv` reports unavailable, the returned ring is exactly
the input ring: the cursor, every occupancy flag, every buffer and
every timestamp are unchanged. -/
theorem recv_failure_atomic (r : Ring) (t : Nat) (r2 : Ring)
    (h : r.recv t = some (none, r2)) :
    r2 = r ∧ r2.next = r.next ∧ ∀ k : Nat, r2.slots[k]? = r.slots[k]? := by
  obtain ⟨he, -⟩ := Ring.recv_fail_elim h
  exact ⟨he, by rw [he], fun k => by rw [he]⟩

/-- Witness for C10: the sixth `recv` of `main`, on the fully claimed
ring. -/
theorem recv_failure_atomic_witness :
    fullRing = fullRing ∧ fullRing.next = fullRing.next ∧
      ∀ k : Nat, fullRing.slots[k]? = fullRing.slots[k]? :=
  recv_failure_atomic fullRing 0 fullRing (by decide)

/-- C3: each successful `recv` returns the Handle for the slot at the
current cursor and advances the cursor by one modulo the capacity, so
any run of consecutive all-successful `recv` calls (no intervening
releases) yields slot indices in strict cyclic order
`next, next+1, ..., mod N`. -/
theorem round_robin_order :
    (∀ (r : Ring) (t : Nat) (p : RecvPacket) (r2 : Ring),
        r.recv t = some (some p, r2) →
        p.idx = r.next ∧ r2.next = (r.next + 1) % r.slots.length) ∧
    (∀ (ts : List Nat) (r : Ring),
        (∀ x ∈ (recvTrace r ts).1, (x.bind id).isSome = true) →
        (recvTrace r ts).1 =
          (List.range ts.length).map
            (fun i => some (some ((r.next + i) % r.slots.length)))) := by
  constructor
  · intro r t p r2 h
    obtain ⟨slot, -, -, hp, hr2⟩ := Ring.recv_success_elim h
    exact ⟨by rw [hp], by rw [hr2, Ring.claimUpdate_next]⟩
  · intro ts
    induction ts with
    | nil => intro r hall; rfl
    | cons t rest ih =>
      intro r hall
      rcases hq : r.recv t with _ | ⟨res, r2⟩
      · rw [recvTrace_cons_none rest hq] at hall
        have := hall none (by simp)
        simp at this
      · rcases res with _ | p
        · rw [recvTrace_cons_some rest hq] at hall
          have := hall (some none) (by simp)
          simp at this
        · obtain ⟨slot, hg, hst, hp, hr2⟩ := Ring.recv_success_elim hq
          have hlt := getElem?_some_lt hg
          rw [recvTrace_cons_some rest hq] at hall
          rw [recvTrace_cons_some rest hq]
          have htail := ih r2 (fun x hx => hall x (List.mem_cons_of_mem _ hx))
          rw [List.length_cons, List.range_succ_eq_map, List.map_cons]
          refine congrArg₂ List.cons ?_ ?_
          · show some (some p.idx) =
              some (some ((r.next + 0) % r.slots.length))
            rw [hp, Nat.add_zero, Nat.mod_eq_of_lt hlt]
          · rw [htail, List.map_map]
            have hn2 : r2.next = (r.next + 1) % r.slots.length := by
              rw [hr2, Ring.claimUpdate_next]
            have hl2 : r2.slots.length = r.slots.length := by
              rw [hr2, Ring.claimUpdate_length]
            refine List.map_congr_left ?_
            intro i hi
            show some (some ((r2.next + i) % r2.slots.length)) =
              some (some ((r.next + Nat.succ i) % r.slots.length))
            rw [hn2, hl2, Nat.mod_add_mod]
            have harith : r.next + 1 + i = r.next + Nat.succ i := by omega
            rw [harith]

/-- Witness for C3: the first `recv` of `main` and a three-call run on
the fresh ring. -/
theorem round_robin_order_witness :
    (({ idx := 0 } : RecvPacket).idx = (Ring.new (fun _ => 0)).next ∧
      ringAfterClaim0.next =
        ((Ring.new (fun _ => 0)).next + 1) % (Ring.new (fun _ => 0)).slots.length) ∧
    (recvTrace (Ring.new (fun _ => 0)) [0, 0, 0]).1 =
      (List.range 3).map
        (fun i => some (some (((Ring.new (fun _ => 0)).next + i) %
          (Ring.new (fun _ => 0)).slots.length))) :=
  ⟨round_robin_order.1 (Ring.new (fun _ => 0)) 0 { idx := 0 } ringAfterClaim0
      (by decide),
    round_robin_order.2 [0, 0, 0] (Ring.new (fun _ => 0)) (by decide)⟩

/-- C4: the `Drop` impl stores false into the occupancy flag of exactly
the one slot the packet references, leaving that slot's buffer and
timestamp and every other slot untouched; and no other operation frees
a slot: `recv` never turns an occupied flag back to false. -/
theorem drop_frees_exactly_one :
    (∀ (r : Ring) (k : Nat) (s : RingSlot), r.slots[k]? = some s →
        (r.dropPacket k).slots[k]? =
          some { status := false, packet := s.packet, timestamp := s.timestamp } ∧
        (r.dropPacket k).statusAt k = false) ∧
    (∀ (r : Ring) (k j : Nat), j ≠ k →
        (r.dropPacket k).slots[j]? = r.slots[j]?) ∧
    (∀ (r : Ring) (t : Nat) (res : Option RecvPacket) (r2 : Ring),
        r.recv t = some (res, r2) →
        ∀ j : Nat, r.statusAt j = true → r2.statusAt j = true) := by
  refine ⟨?_, ?_, ?_⟩
  · intro r k s hg
    refine ⟨?_, Ring.statusAt_dropPacket_self r k⟩
    rw [Ring.dropPacket_of_some hg]
    exact List.getElem?_set_self (getElem?_some_lt hg)
  · intro r k j hj
    exact Ring.dropPacket_getElem_ne r hj
  · intro r t res r2 h j hj
    rcases res with _ | p
    · obtain ⟨he, -⟩ := Ring.recv_fail_elim h
      rw [he]
      exact hj
    · obtain ⟨slot, hg, hst, hp, hr2⟩ := Ring.recv_success_elim h
      have hlt := getElem?_some_lt hg
      by_cases hjn : j = r.next
      · rw [hr2, hjn]
        exact Ring.statusAt_claimUpdate_self t slot hlt
      · rw [hr2, Ring.statusAt_claimUpdate_ne t slot hjn]
        exact hj

/-- Witness for C4: dropping the handle of slot 0 on the ring after the
first claim, and the second `recv` of `main`. -/
theorem drop_frees_exactly_one_witness :
    ((ringAfterClaim0.dropPacket 0).slots[0]? =
        some { status := false, packet := { data := [0, 1, 2, 3, 4], cap := 5 },
               timestamp := 0 } ∧
      (ringAfterClaim0.dropPacket 0).statusAt 0 = false) ∧
    (ringAfterClaim0.dropPacket 0).slots[3]? = ringAfterClaim0.slots[3]? ∧
    (ringAfterClaim0.statusAt 0 = true →
      ((ringAfterClaim0.recv 7).getD (none, ringAfterClaim0)).2.statusAt 0 = true) := by
  refine ⟨drop_frees_exactly_one.1 ringAfterClaim0 0
      { status := true, packet := { data := [0, 1, 2, 3, 4], cap := 5 },
        timestamp := 0 } (by decide),
    drop_frees_exactly_one.2.1 ringAfterClaim0 0 3 (by decide), ?_⟩
  intro h0
  exact drop_frees_exactly_one.2.2 ringAfterClaim0 7
    (some { idx := 1 })
    ((ringAfterClaim0.recv 7).getD (none, ringAfterClaim0)).2 (by decide) 0 h0

/-- C5: the cursor is a valid index in every reachable state; it
advances by exactly one modulo the capacity on a successful claim
(which also preserves the capacity), and a failed (no-free-slot) `recv`
returns the ring unchanged, cursor included. -/
theorem cursor_invariant :
    (∀ (ts : Nat → Nat) (ops : List Op),
        ((World.init ts).run ops).ring.next <
          ((World.init ts).run ops).ring.slots.length) ∧
    (∀ (r : Ring) (t : Nat) (p : RecvPacket) (r2 : Ring),
        r.recv t = some (some p, r2) →
        r2.next = (r.next + 1) % r.slots.length ∧
        r2.slots.length = r.slots.length) ∧
    (∀ (r : Ring) (t : Nat) (r2 : Ring),
        r.recv t = some (none, r2) → r2.next = r.next) := by
  refine ⟨?_, ?_, ?_⟩
  · intro ts ops
    exact NInv.run_bound ops _ (NInv.init_bound ts)
  · intro r t p r2 h
    obtain ⟨slot, -, -, -, hr2⟩ := Ring.recv_success_elim h
    exact ⟨by rw [hr2, Ring.claimUpdate_next],
      by rw [hr2, Ring.claimUpdate_length]⟩
  · intro r t r2 h
    obtain ⟨he, -⟩ := Ring.recv_fail_elim h
    rw [he]

/-- Witness for C5: the first `recv` of `main` and the failing sixth
`recv` on the fully claimed ring. -/
theorem cursor_invariant_witness :
    (ringAfterClaim0.next =
        ((Ring.new (fun _ => 0)).next + 1) % (Ring.new (fun _ => 0)).slots.length ∧
      ringAfterClaim0.slots.length = (Ring.new (fun _ => 0)).slots.length) ∧
    fullRing.next = fullRing.next :=
  ⟨cursor_invariant.2.1 (Ring.new (fun _ => 0)) 0 { idx := 0 } ringAfterClaim0
      (by decide),
    cursor_invariant.2.2 fullRing 0 fullRing (by decide)⟩

/-- C6: with the cursor in range, `recv` reports unavailable exactly
when the occupancy flag of the slot at the cursor reads true; this is
the only failure condition, it is an absent result rather than a panic,
and when the cursor slot is free the call succeeds (no other slot can
cause failure). -/
theorem recv_unavailable_iff (r : Ring) (t : Nat)
    (h : r.next < r.slots.length) :
    ((∃ r2, r.recv t = some (none, r2)) ↔ r.statusAt r.next = true) ∧
    r.recv t ≠ none ∧
    (r.statusAt r.next = false →
      ∃ p r2, r.recv t = some (some p, r2) ∧ p.idx = r.next) := by
  have hg : r.slots[r.next]? = some r.slots[r.next] :=
    List.getElem?_eq_some.mpr ⟨h, rfl⟩
  have hsa : r.statusAt r.next = r.slots[r.next].status := by
    unfold Ring.statusAt
    rw [hg]
  refine ⟨⟨?_, ?_⟩, ?_, ?_⟩
  · rintro ⟨r2, hr⟩
    obtain ⟨-, s, hg2, hs⟩ := Ring.recv_fail_elim hr
    rw [hsa]
    rw [hg] at hg2
    injection hg2 with he
    rw [he]
    exact hs
  · intro hocc
    rw [hsa] at hocc
    exact ⟨r, Ring.recv_of_occupied t hg hocc⟩
  · intro hn
    rw [Ring.recv_none_iff] at hn
    rw [hg] at hn
    cases hn
  · intro hfree
    rw [hsa] at hfree
    exact ⟨{ idx := r.next }, r.claimUpdate t r.slots[r.next],
      Ring.recv_of_free t hg hfree, rfl⟩

/-- Witness for C6: the fresh ring of `main` at clock 0. -/
theorem recv_unavailable_iff_witness :
    ((∃ r2, (Ring.new (fun _ => 0)).recv 0 = some (none, r2)) ↔
        (Ring.new (fun _ => 0)).statusAt (Ring.new (fun _ => 0)).next = true) ∧
    (Ring.new (fun _ => 0)).recv 0 ≠ none ∧
    ((Ring.new (fun _ => 0)).statusAt (Ring.new (fun _ => 0)).next = false →
      ∃ p r2, (Ring.new (fun _ => 0)).recv 0 = some (some p, r2) ∧
        p.idx = (Ring.new (fun _ => 0)).next) :=
  recv_unavailable_iff (Ring.new (fun _ => 0)) 0 (by decide)

/-- C7: drain-refill idempotence. From a fresh ring, receiving until
unavailable yields handles for slots 0..4 then unavailable; after
dropping all five handles, a second drain yields the identical index
sequence, and the per-slot buffer contents after the second drain equal
those after the first. -/
theorem drain_refill_idempotent (ts : Nat → Nat)
    (a1 a2 a3 a4 a5 a6 b1 b2 b3 b4 b5 b6 : Nat) :
    (recvTrace (Ring.new ts) [a1, a2, a3, a4, a5, a6]).1 =
        [some (some 0), some (some 1), some (some 2), some (some 3),
          some (some 4), some none] ∧
    (recvTrace
        ([0, 1, 2, 3, 4].foldl Ring.dropPacket
          (recvTrace (Ring.new ts) [a1, a2, a3, a4, a5, a6]).2)
        [b1, b2, b3, b4, b5, b6]).1 =
        [some (some 0), some (some 1), some (some 2), some (some 3),
          some (some 4), some none] ∧
    (recvTrace (Ring.new ts) [a1, a2, a3, a4, a5, a6]).2.slots.map
        (fun s => s.packet.data) =
      (recvTrace
          ([0, 1, 2, 3, 4].foldl Ring.dropPacket
            (recvTrace (Ring.new ts) [a1, a2, a3, a4, a5, a6]).2)
          [b1, b2, b3, b4, b5, b6]).2.slots.map (fun s => s.packet.data) := by
  have h1 := recvTrace_shape_congr [a1, a2, a3, a4, a5, a6] [0, 0, 0, 0, 0, 0]
      rfl (Ring.new ts) (Ring.new (fun _ => 0)) (Ring.new_shape_eq ts)
  have h2 := foldl_dropPacket_shape_congr [0, 1, 2, 3, 4] h1.2
  have h3 := recvTrace_shape_congr [b1, b2, b3, b4, b5, b6] [0, 0, 0, 0, 0, 0]
      rfl _ _ h2
  refine ⟨?_, ?_, ?_⟩
  · rw [h1.1]
    decide
  · rw [h3.1]
    decide
  · rw [Ring.shape_packets_eq h1.2, Ring.shape_packets_eq h3.2]
    decide

/-- C8: the buffer produced by claiming a slot is the fixed fill
`[0 % 256, 1 % 256, ...]` of length equal to the buffer capacity found
in the slot — a deterministic function of the slot's capacity alone,
independent of the slot's previous contents and of how many times it
was claimed before. -/
theorem buffer_deterministic (r : Ring) (t : Nat) (p : RecvPacket)
    (r2 : Ring) (s0 s1 : RingSlot)
    (hg0 : r.slots[r.next]? = some s0)
    (h : r.recv t = some (some p, r2))
    (hg1 : r2.slots[p.idx]? = some s1) :
    s1.packet.data = (List.range s0.packet.cap).map (fun i => i % 256) ∧
      s1.packet.cap = s0.packet.cap := by
  obtain ⟨slot, hg, hst, hp, hr2⟩ := Ring.recv_success_elim h
  rw [hg0] at hg
  injection hg with he
  have hlt := getElem?_some_lt hg0
  have hidx : p.idx = r.next := by rw [hp]
  rw [hr2, hidx, Ring.claimUpdate_getElem_self r t slot hlt] at hg1
  injection hg1 with he1
  rw [← he1, he]
  exact ⟨rfl, rfl⟩

/-- Witness for C8: the first `recv` of `main` at clock 0. -/
theorem buffer_deterministic_witness :
    claimedSlot0.packet.data =
      (List.range freshSlot0.packet.cap).map (fun i => i % 256) ∧
    claimedSlot0.packet.cap = freshSlot0.packet.cap :=
  buffer_deterministic (Ring.new (fun _ => 0)) 0 { idx := 0 } ringAfterClaim0
    freshSlot0 claimedSlot0 (by decide) (by decide) (by decide)

/-- C9: after a handle drop the cursor is unchanged, so the next
successful `recv` still claims the slot at the cursor and it is slot k
exactly when the cursor already sits at k; concretely, claiming slot 0
on a fresh ring, dropping its handle at once, and receiving on yields
slots 1,2,3,4 first and slot 0 only one full cycle later. -/
theorem release_enables_reuse :
    (∀ (r : Ring) (k t : Nat) (p : RecvPacket) (r2 : Ring),
        (r.dropPacket k).recv t = some (some p, r2) →
        p.idx = r.next ∧ (p.idx = k ↔ r.next = k)) ∧
    (∀ (ts : Nat → Nat) (a b1 b2 b3 b4 b5 b6 : Nat),
        (recvTrace ((recvTrace (Ring.new ts) [a]).2.dropPacket 0)
            [b1, b2, b3, b4, b5, b6]).1 =
          [some (some 1), some (some 2), some (some 3), some (some 4),
            some (some 0), some none]) := by
  constructor
  · intro r k t p r2 h
    obtain ⟨slot, -, -, hp, -⟩ := Ring.recv_success_elim h
    have hpn : p.idx = (r.dropPacket k).next := by rw [hp]
    rw [Ring.dropPacket_next] at hpn
    exact ⟨hpn, by rw [hpn]⟩
  · intro ts a b1 b2 b3 b4 b5 b6
    have h1 := recvTrace_shape_congr [a] [0] rfl
        (Ring.new ts) (Ring.new (fun _ => 0)) (Ring.new_shape_eq ts)
    have h2 := Ring.dropPacket_shape_congr 0 h1.2
    have h3 := recvTrace_shape_congr [b1, b2, b3, b4, b5, b6]
        [0, 0, 0, 0, 0, 0] rfl _ _ h2
    rw [h3.1]
    decide

/-- Witness for C9: dropping slot 0 of the fully claimed ring and
receiving again re-issues slot 0, the cursor slot. -/
theorem release_enables_reuse_witness :
    ({ idx := 0 } : RecvPacket).idx = fullRing.next ∧
      (({ idx := 0 } : RecvPacket).idx = 0 ↔ fullRing.next = 0) :=
  release_enables_reuse.1 fullRing 0 0 { idx := 0 }
    { slots := fullRing.slots, next := 1 } (by decide)

end Nethuns
